import Mathlib

/-!
# Verification of the resilient external-call orchestration layer of The-Vibe-Venue

Shallow embedding, translated from the TypeScript sources, of:

* the sliding-window rate limiter (`src/lib/rate-limiter.ts`, class `RateLimiter`);
* the LRU cache with TTL (`LRUCache` module: `get`, `set`, `evictLRU`);
* the retry-with-backoff helper (`retryWithBackoff`, `isRetryableError`);
* the search orchestrator (`searchAndEnrichVenues`, `searchMultipleQueries`);
* the quality filter / cap of the search-venues API handler
  (`src/pages/api/recommendations.ts`).

JavaScript numbers holding millisecond timestamps are modelled as `Int`;
JavaScript `Map` objects are modelled either as total functions with a `[]`
default (the rate-limiter store, where the code itself treats a missing entry
as `{ timestamps: [] }`) or as insertion-ordered association lists (the LRU
cache, where iteration order matters for the eviction scan).  `Date.now()`
values are passed in explicitly as `now` parameters.  Logging, `setInterval`
bookkeeping and retry sleeping are side effects that do not influence any
returned value and are not modelled.
-/

namespace RateLimit

/-- Record `RateLimitResult` (src/types/rate-limit), as returned by `RateLimiter.check`. -/
structure RateLimitResult where
  allowed : Bool
  remaining : Int
  resetTime : Int
  retryAfter : Option Int
deriving Repr, DecidableEq

/-- The rate limiter's `store : Map<string, RateLimitEntry>`, as a total function;
a missing identifier is the empty timestamp list, exactly how `check` reads it
(`this.store.get(identifier) || { timestamps: [] }`). -/
def Store : Type := String → List Int

/-- The store of a freshly constructed `RateLimiter` (`new Map()`). -/
def emptyStore : Store := fun _ => []

/-- Model of `Math.ceil(x / 1000)` on integer milliseconds. -/
def ceilSec (x : Int) : Int := -((-x).fdiv 1000)

/-- Method `RateLimiter.check(identifier, limit, windowMs)` from `src/lib/rate-limiter.ts`.
Prunes timestamps with `now - timestamp < windowMs` false, admits when the pruned
count is `< limit`, appends `now` on admission.  The pruning is written back even
on denial (the JS code mutates the stored entry object in place).  The returned
`remaining` is `remaining - 1` on admission, `0` on denial; `resetTime` uses the
JS truthiness test `oldestTimestamp ? ... : ...` (a `0` timestamp is falsy). -/
def check (store : Store) (identifier : String) (limit : Nat) (windowMs : Int)
    (now : Int) : RateLimitResult × Store :=
  let timestamps := (store identifier).filter (fun t => decide (now - t < windowMs))
  let allowed := decide (timestamps.length < limit)
  let remaining : Int := max 0 ((limit : Int) - timestamps.length)
  let oldestTimestamp : Int := timestamps.headD 0
  let resetTime : Int :=
    if oldestTimestamp ≠ 0 then oldestTimestamp + windowMs else now + windowMs
  let retryAfter : Option Int :=
    if allowed then none else some (ceilSec (resetTime - now))
  let newTimestamps := if allowed then timestamps ++ [now] else timestamps
  ({ allowed := allowed
     remaining := if allowed then remaining - 1 else 0
     resetTime := resetTime
     retryAfter := retryAfter },
   fun id => if id = identifier then newTimestamps else store id)

/-- One `check` call of a trace: its identifier, limit, window and `Date.now()` value. -/
structure Call where
  identifier : String
  limit : Nat
  windowMs : Int
  time : Int
deriving Repr, DecidableEq

/-- Times of the calls for identifier `id0` in a trace that return `allowed = true`,
in call order, running the limiter from `store`. -/
def allowedTimes (id0 : String) : Store → List Call → List Int
  | _, [] => []
  | store, c :: rest =>
    let out := check store c.identifier c.limit c.windowMs c.time
    let tail := allowedTimes id0 out.2 rest
    if c.identifier = id0 ∧ out.1.allowed = true then c.time :: tail else tail

end RateLimit

namespace Cache

/-- Record `CacheEntry<T>` (src/types/cache): value, absolute expiry time, last access time. -/
structure CacheEntry (T : Type) where
  value : T
  expires : Int
  accessTime : Int
deriving Repr, DecidableEq

/-- Class `LRUCache<T>`: the entry map (as an insertion-ordered association list, the
iteration order of a JS `Map`), `maxSize`, and the `stats` counters. -/
structure LRUCache (T : Type) where
  cache : List (String × CacheEntry T)
  maxSize : Nat
  hits : Nat
  misses : Nat
  evictions : Nat
deriving Repr, DecidableEq

/-- A freshly constructed `LRUCache` (`new Map()`, zeroed stats). -/
def emptyLRU (T : Type) (maxSize : Nat) : LRUCache T :=
  { cache := [], maxSize := maxSize, hits := 0, misses := 0, evictions := 0 }

/-- Model of JS `Map.get`: first (and, under key uniqueness, only) binding of `k`. -/
def mapLookup (k : String) : List (String × β) → Option β
  | [] => none
  | (k', v) :: rest => if k' = k then some v else mapLookup k rest

/-- Model of JS `Map.set`: overwrite in place if the key exists (keeping its position in
iteration order), otherwise append at the end. -/
def mapSet (k : String) (v : β) : List (String × β) → List (String × β)
  | [] => [(k, v)]
  | (k', v') :: rest => if k' = k then (k, v) :: rest else (k', v') :: mapSet k v rest

/-- Model of JS `Map.delete`: remove the binding of `k` (the first, under key uniqueness). -/
def mapDelete (k : String) : List (String × β) → List (String × β)
  | [] => []
  | (k', v') :: rest => if k' = k then rest else (k', v') :: mapDelete k rest

/-- The keys of the map, in iteration order. -/
def mapKeys (l : List (String × β)) : List String := l.map Prod.fst

/-- One step of the `evictLRU` scan: keep the entry with the strictly smaller
`accessTime` (`oldestTime` starts at `Infinity`, represented by the `none`
accumulator, so the first entry always replaces it). -/
def scanStep (acc : Option (String × Int)) (kv : String × CacheEntry T) :
    Option (String × Int) :=
  match acc with
  | none => some (kv.1, kv.2.accessTime)
  | some best =>
    if kv.2.accessTime < best.2 then some (kv.1, kv.2.accessTime) else some best

/-- The scan of `evictLRU`: fold over the entries in iteration order, ending on
the first entry carrying the minimal `accessTime`. -/
def scanOldest (l : List (String × CacheEntry T)) : Option (String × Int) :=
  l.foldl scanStep none

/-- Method `LRUCache.evictLRU`: delete the scan result and count an eviction.  The JS
guard is `if (oldestKey)`, a truthiness test: both `null` (empty map) and the
empty-string key are falsy, so in those cases nothing is deleted. -/
def LRUCache.evictLRU (c : LRUCache T) : LRUCache T :=
  match scanOldest c.cache with
  | some (oldestKey, _) =>
    if oldestKey ≠ "" then
      { c with cache := mapDelete oldestKey c.cache, evictions := c.evictions + 1 }
    else c
  | none => c

/-- Method `LRUCache.get(key)`: miss on absence; expiry check `Date.now() > entry.expires`
deletes and misses; otherwise refresh `accessTime` and hit. -/
def LRUCache.get (c : LRUCache T) (key : String) (now : Int) : Option T × LRUCache T :=
  match mapLookup key c.cache with
  | none => (none, { c with misses := c.misses + 1 })
  | some entry =>
    if now > entry.expires then
      (none, { c with cache := mapDelete key c.cache, misses := c.misses + 1 })
    else
      (some entry.value,
       { c with cache := mapSet key { entry with accessTime := now } c.cache,
                hits := c.hits + 1 })

/-- Method `LRUCache.set(key, value, ttlMs)`: evict first when the map is at capacity and
the raw map does not contain the key (`this.cache.size >= this.maxSize &&
!this.cache.has(key)`), then insert `{value, expires: now + ttlMs, accessTime: now}`. -/
def LRUCache.set (c : LRUCache T) (key : String) (value : T) (ttlMs : Int)
    (now : Int) : LRUCache T :=
  let c1 :=
    if c.maxSize ≤ c.cache.length ∧ (mapLookup key c.cache).isNone then c.evictLRU else c
  { c1 with cache := mapSet key ⟨value, now + ttlMs, now⟩ c1.cache }

/-- A cache operation of a trace, with its `Date.now()` value. -/
inductive CacheOp (T : Type) where
  | set (key : String) (value : T) (ttlMs : Int) (now : Int)
  | get (key : String) (now : Int)
deriving Repr, DecidableEq

/-- Apply one operation to the cache (`get` for its state effect). -/
def applyOp (c : LRUCache T) : CacheOp T → LRUCache T
  | .set k v ttl now => c.set k v ttl now
  | .get k now => (c.get k now).2

/-- Run a trace of cache operations. -/
def applyOps (c : LRUCache T) (ops : List (CacheOp T)) : LRUCache T :=
  ops.foldl applyOp c

/-- The key an operation addresses. -/
def CacheOp.key : CacheOp T → String
  | .set k _ _ _ => k
  | .get k _ => k

end Cache

namespace Retry

/-- The shape of a thrown JS error as far as `isRetryableError` inspects it:
`error.response?.status`, `error.code`, `error.message`, `error.name`.  JS
truthiness on the first three (absent, `0`, or `''` are all falsy) is
represented by `none`. -/
structure JsError where
  responseStatus : Option Nat
  code : Option String
  message : Option String
  name : Option String
deriving Repr, DecidableEq

/-- Record `RetryConfig` from the retry module. -/
structure RetryConfig where
  maxAttempts : Nat
  initialDelay : Int
  maxDelay : Int
  retryableStatusCodes : List Nat
  retryableErrors : List String
deriving Repr, DecidableEq

/-- Constant `DEFAULT_CONFIG` from the retry module. -/
def DEFAULT_CONFIG : RetryConfig :=
  { maxAttempts := 3
    initialDelay := 1000
    maxDelay := 10000
    retryableStatusCodes := [429, 500, 502, 503, 504]
    retryableErrors := ["ECONNRESET", "ETIMEDOUT", "ENOTFOUND", "EAI_AGAIN", "ECONNREFUSED"] }

/-- Whether `pat` occurs at the start of `s`. -/
def charsStartWith : List Char → List Char → Bool
  | [], _ => true
  | _ :: _, [] => false
  | p :: ps, c :: cs => decide (p = c) && charsStartWith ps cs

/-- Whether `pat` occurs somewhere in `s`. -/
def charsContain (pat : List Char) : List Char → Bool
  | [] => pat.isEmpty
  | c :: cs => charsStartWith pat (c :: cs) || charsContain pat cs

/-- Model of JS `String.prototype.includes`. -/
def strIncludes (s pat : String) : Bool := charsContain pat.toList s.toList

/-- The `error.message` branch of `isRetryableError`
(`network` / `fetch` / `timeout` in the lowercased message). -/
def msgRetryable (m : String) : Bool :=
  strIncludes m.toLower "network" || strIncludes m.toLower "fetch" ||
    strIncludes m.toLower "timeout"

/-- The `error.name` branch of `isRetryableError` (`AbortError` / `TimeoutError`). -/
def nameRetryable (error : JsError) : Bool :=
  decide (error.name = some "AbortError" ∨ error.name = some "TimeoutError")

/-- Function `isRetryableError(error, config)`: status-code allow-list if a response status
is present, else error-code allow-list if a code is present, else the message
heuristic (falling through to the name check on no match), else the name check. -/
def isRetryableError (error : JsError) (config : RetryConfig) : Bool :=
  match error.responseStatus with
  | some s => config.retryableStatusCodes.contains s
  | none =>
    match error.code with
    | some c => config.retryableErrors.contains c
    | none =>
      match error.message with
      | some m => if msgRetryable m then true else nameRetryable error
      | none => nameRetryable error

/-- Error `new Error('Retry failed with unknown error')`, thrown after the loop when no
attempt ever ran (only reachable with `maxAttempts = 0`). -/
def unknownRetryError : JsError :=
  { responseStatus := none, code := none
    message := some "Retry failed with unknown error", name := none }

/-- The `for` loop of `retryWithBackoff`, at loop counter `attempt` with
`remaining` iterations left (`remaining = maxAttempts - attempt` at the call
site).  The `i`-th invocation of `fn` (counted from 0) yields `outcomes i`;
a thrown error is an `Except.error`.  Returns the propagated result paired with
the number of invocations of `fn` performed.  The backoff delay and the sleep
between attempts influence neither component and are not modelled. -/
def retryLoop (outcomes : Nat → Except JsError T) (config : RetryConfig) :
    Nat → Nat → Except JsError T × Nat
  | _, 0 => (Except.error unknownRetryError, 0)
  | attempt, remaining + 1 =>
    match outcomes attempt with
    | Except.ok v => (Except.ok v, 1)
    | Except.error e =>
      let shouldRetry := isRetryableError e config
      let isLastAttempt := decide (attempt = config.maxAttempts - 1)
      if !shouldRetry || isLastAttempt then (Except.error e, 1)
      else
        let rest := retryLoop outcomes config (attempt + 1) remaining
        (rest.1, rest.2 + 1)

/-- Function `retryWithBackoff(fn, config)` (config already merged with the defaults):
run the attempt loop from attempt 0. -/
def retryWithBackoff (outcomes : Nat → Except JsError T) (config : RetryConfig) :
    Except JsError T × Nat :=
  retryLoop outcomes config 0 config.maxAttempts

end Retry

namespace Search

/-- Record `Review` (src/types/venue), as produced by `convertToVenue`. -/
structure Review where
  author : String
  rating : ℚ
  text : String
  time : Int
deriving Repr, DecidableEq

/-- A venue's coordinates. -/
structure Location where
  lat : ℚ
  lng : ℚ
deriving Repr, DecidableEq

/-- Record `Venue` (src/types/venue), as produced by `convertToVenue`. -/
structure Venue where
  name : String
  address : String
  rating : ℚ
  priceLevel : ℚ
  photos : List String
  reviews : List Review
  openingHours : Option String
  placeId : String
  location : Location
deriving Repr, DecidableEq

/-- One query's `searchAndEnrichVenues` run, at the granularity the orchestration
claims need: the whole body sits in a `try` whose `catch` returns `[]`, so a
failed adapter pass contributes the empty venue list and an ordinary pass
contributes its enriched venues. -/
def searchAndEnrichVenues (outcome : Except Retry.JsError (List Venue)) : List Venue :=
  match outcome with
  | Except.ok venues => venues
  | Except.error _ => []

/-- The body of the dedup loop of `searchMultipleQueries`: skip a venue whose
`placeId` is already in `venueMap`, otherwise add it at the end (JS `Map`
insertion order, which is the order `Array.from(venueMap.values())` returns). -/
def insertVenue (venueMap : List Venue) (venue : Venue) : List Venue :=
  if venueMap.any (fun w => decide (w.placeId = venue.placeId)) then venueMap
  else venueMap ++ [venue]

/-- Flatten-and-deduplicate of `searchMultipleQueries` over the per-query result
lists, in query order. -/
def mergeVenues (results : List (List Venue)) : List Venue :=
  results.foldl (fun venueMap venueList => venueList.foldl insertVenue venueMap) []

/-- Function `searchMultipleQueries(queries, ...)`: run every query (each call already
protected by `.catch(() => [])`, on top of the internal catch of
`searchAndEnrichVenues`), then flatten and deduplicate by `placeId`. -/
def searchMultipleQueries (outcomes : List (Except Retry.JsError (List Venue))) :
    List Venue :=
  mergeVenues (outcomes.map searchAndEnrichVenues)

end Search

namespace Api

/-- The quality heuristic of the search-venues handler
(src/pages/api/recommendations.ts, step 3): a rating, a photo, or a review. -/
def qualityOk (venue : Search.Venue) : Bool :=
  decide (venue.rating > 0) || decide (venue.photos.length > 0) ||
    decide (venue.reviews.length > 0)

/-- Steps 3 and 4 of the search-venues handler: filter by `qualityOk`; if fewer
than 5 venues survive, fall back to the unfiltered list; cap at 15
(`slice(0, 15)`). -/
def limitedVenues (venues : List Search.Venue) : List Search.Venue :=
  let filteredVenues := venues.filter qualityOk
  let final := if 5 ≤ filteredVenues.length then filteredVenues else venues
  final.take 15

end Api

namespace RateLimit

/-- C7, counterexample: one allowed `check` on a fresh identifier with
`limit = 1`.  The pruned pre-append count is `0`, so the claim predicts
`remaining = limit - count = 1`, but the code returns `remaining - 1 = 0`. -/
theorem check_remaining_counterexample :
    (check emptyStore "a" 1 1000 0).1.allowed = true ∧
    ((emptyStore "a").filter (fun t => decide ((0 : Int) - t < 1000))).length = 0 ∧
    (check emptyStore "a" 1 1000 0).1.remaining ≠ (1 : Int) - 0 := by
  decide

/-- C7, amended: for every `check` that returns `allowed = true`, the returned
`remaining` equals `limit` minus the pruned pre-append count, minus one
(equivalently, `limit` minus the count after `now` is appended). -/
theorem check_allowed_remaining (store : Store) (identifier : String) (limit : Nat)
    (windowMs now : Int)
    (h : (check store identifier limit windowMs now).1.allowed = true) :
    (check store identifier limit windowMs now).1.remaining =
      (limit : Int) -
        ((store identifier).filter (fun t => decide (now - t < windowMs))).length - 1 := by
  simp only [check, decide_eq_true_eq] at h ⊢
  rw [if_pos h]
  have : (((store identifier).filter (fun t => decide (now - t < windowMs))).length : Int)
      < (limit : Int) := by exact_mod_cast h
  omega

/-- Witness for `check_allowed_remaining` at a concrete admitted call. -/
theorem check_allowed_remaining_witness :
    (check emptyStore "b" 1 1000 0).1.remaining =
      (1 : Int) - ((emptyStore "b").filter (fun t => decide ((0 : Int) - t < 1000))).length - 1 :=
  check_allowed_remaining emptyStore "b" 1 1000 0 (by decide)

/-- C10: a denied `check` leaves the identifier's record equal to its pruned
value (no timestamp appended), touches no other identifier, and an immediately
repeated `check` with the same arguments returns the identical result. -/
theorem check_denied_no_append (store : Store) (identifier : String) (limit : Nat)
    (windowMs now : Int)
    (h : (check store identifier limit windowMs now).1.allowed = false) :
    (check store identifier limit windowMs now).2 identifier
        = (store identifier).filter (fun t => decide (now - t < windowMs)) ∧
    (∀ id', id' ≠ identifier →
      (check store identifier limit windowMs now).2 id' = store id') ∧
    (check ((check store identifier limit windowMs now).2) identifier limit windowMs now).1
        = (check store identifier limit windowMs now).1 := by
  have hnot : ¬ ((store identifier).filter
      (fun t => decide (now - t < windowMs))).length < limit := by
    simpa [check] using h
  have hfix : ((store identifier).filter (fun t => decide (now - t < windowMs))).filter
      (fun t => decide (now - t < windowMs))
      = (store identifier).filter (fun t => decide (now - t < windowMs)) := by
    exact List.filter_eq_self.mpr (fun a ha => (List.mem_filter.mp ha).2)
  refine ⟨?_, ?_, ?_⟩
  · simp [check, hnot]
  · intro id' hid
    simp [check, hnot, hid]
  · simp [check, hnot, hfix]

/-- Witness for `check_denied_no_append`: a denied re-check returns the same
result as the denied check it repeats. -/
theorem check_denied_no_append_witness :
    (check ((check (fun _ => [0, 0]) "a" 1 1000 0).2) "a" 1 1000 0).1
      = (check (fun _ => [0, 0]) "a" 1 1000 0).1 :=
  (check_denied_no_append (fun _ => [0, 0]) "a" 1 1000 0 (by decide)).2.2

end RateLimit

namespace Api

/-- C8: the search-venues endpoint returns at most 15 venues; when at least 5
venues pass the quality heuristic, every returned venue passes it; when fewer
than 5 pass, the filter is skipped and the unfiltered merged list, truncated to
the cap, is returned. -/
theorem limitedVenues_cap_and_quality (venues : List Search.Venue) :
    (limitedVenues venues).length ≤ 15 ∧
    (5 ≤ (venues.filter qualityOk).length →
      ∀ v ∈ limitedVenues venues, qualityOk v = true) ∧
    ((venues.filter qualityOk).length < 5 →
      limitedVenues venues = venues.take 15) := by
  refine ⟨?_, ?_, ?_⟩
  · simp only [limitedVenues]
    exact List.length_take_le 15 _
  · intro hfloor v hv
    simp only [limitedVenues, if_pos hfloor] at hv
    exact (List.mem_filter.mp (List.mem_of_mem_take hv)).2
  · intro hfloor
    have hno : ¬ 5 ≤ (venues.filter qualityOk).length := by omega
    simp only [limitedVenues, if_neg hno]

/-- Witness for `limitedVenues_cap_and_quality`: with an empty merged set the
filter is skipped and the (empty) unfiltered list is returned truncated. -/
theorem limitedVenues_cap_and_quality_witness :
    Api.limitedVenues [] = List.take 15 [] :=
  (limitedVenues_cap_and_quality []).2.2 (by decide)

end Api

namespace Search

/-- Inserting venues never removes a `placeId` already represented in the map. -/
theorem insertVenue_any_mono (pid : String) (acc : List Venue) (v : Venue)
    (h : acc.any (fun w => decide (w.placeId = pid)) = true) :
    (insertVenue acc v).any (fun w => decide (w.placeId = pid)) = true := by
  unfold insertVenue
  split
  · exact h
  · simp only [List.any_append, h, Bool.true_or]

/-- While a `placeId` is already represented in the map, the dedup fold keeps
its bindings for that `placeId` unchanged. -/
theorem foldl_insertVenue_filter_mem (pid : String) :
    ∀ (l acc : List Venue), acc.any (fun w => decide (w.placeId = pid)) = true →
      (l.foldl insertVenue acc).filter (fun v => decide (v.placeId = pid))
        = acc.filter (fun v => decide (v.placeId = pid)) := by
  intro l
  induction l with
  | nil => intro acc _; rfl
  | cons v rest ih =>
    intro acc hacc
    have step : (insertVenue acc v).filter (fun w => decide (w.placeId = pid))
        = acc.filter (fun w => decide (w.placeId = pid)) := by
      unfold insertVenue
      split
      · rfl
      · rename_i hnot
        by_cases hpid : v.placeId = pid
        · exfalso
          rw [List.any_eq_true] at hacc
          obtain ⟨w, hw, hwp⟩ := hacc
          rw [decide_eq_true_eq] at hwp
          rw [List.any_eq_true] at hnot
          exact hnot ⟨w, hw, by simp [hwp, hpid]⟩
        · simp [List.filter_append, hpid]
    rw [List.foldl_cons, ih _ (insertVenue_any_mono pid acc v hacc), step]

/-- While a `placeId` is absent from the map, the dedup fold ends up holding
exactly the first venue of the remaining input that carries it. -/
theorem foldl_insertVenue_filter_not_mem (pid : String) :
    ∀ (l acc : List Venue), acc.any (fun w => decide (w.placeId = pid)) = false →
      (l.foldl insertVenue acc).filter (fun v => decide (v.placeId = pid))
        = (l.filter (fun v => decide (v.placeId = pid))).take 1 := by
  intro l
  induction l with
  | nil =>
    intro acc hacc
    rw [List.any_eq_false] at hacc
    simp only [List.foldl_nil, List.filter_nil, List.take_nil]
    exact List.filter_eq_nil_iff.mpr hacc
  | cons v rest ih =>
    intro acc hacc
    by_cases hpid : v.placeId = pid
    · have hins : insertVenue acc v = acc ++ [v] := by
        unfold insertVenue
        rw [if_neg]
        intro hany
        rw [List.any_eq_true] at hany
        obtain ⟨w, hw, hwp⟩ := hany
        rw [List.any_eq_false] at hacc
        exact hacc w hw (by simpa [hpid] using hwp)
      have hany' : (insertVenue acc v).any (fun w => decide (w.placeId = pid)) = true := by
        rw [hins]
        simp [hpid]
      rw [List.foldl_cons, foldl_insertVenue_filter_mem pid rest _ hany', hins]
      rw [List.any_eq_false] at hacc
      simp [List.filter_append, List.filter_eq_nil_iff.mpr hacc, hpid]
    · have hany' : (insertVenue acc v).any (fun w => decide (w.placeId = pid)) = false := by
        unfold insertVenue
        split
        · exact hacc
        · simp only [List.any_append, hacc, Bool.false_or, List.any_cons, List.any_nil,
            Bool.or_false]
          simpa using hpid
      rw [List.foldl_cons, ih _ hany']
      simp [hpid]

/-- C4: the merged output of `searchMultipleQueries` holds, for every `placeId`,
exactly the first venue carrying it across the per-query result lists in query
order — each identity appears exactly once, first-seen wins. -/
theorem searchMultipleQueries_dedup
    (outcomes : List (Except Retry.JsError (List Venue))) (pid : String) :
    (searchMultipleQueries outcomes).filter (fun v => decide (v.placeId = pid))
      = (((outcomes.map searchAndEnrichVenues).flatten).filter
          (fun v => decide (v.placeId = pid))).take 1 := by
  unfold searchMultipleQueries mergeVenues
  rw [← List.foldl_flatten]
  exact foldl_insertVenue_filter_not_mem pid _ [] rfl

/-- The dedup fold of an all-empty result set stays empty. -/
theorem mergeVenues_all_nil :
    ∀ (results : List (List Venue)), (∀ l ∈ results, l = []) → mergeVenues results = [] := by
  have gen : ∀ (results : List (List Venue)) (acc : List Venue), (∀ l ∈ results, l = []) →
      results.foldl (fun venueMap venueList => venueList.foldl insertVenue venueMap) acc
        = acc := by
    intro results
    induction results with
    | nil => intro acc _; rfl
    | cons l rest ih =>
      intro acc h
      rw [List.foldl_cons, h l (List.mem_cons_self l rest)]
      exact ih acc (fun l' hl' => h l' (List.mem_cons_of_mem _ hl'))
  intro results h
  exact gen results [] h

/-- C9: a failed query is absorbed as zero results for that query, leaving every
other query's contribution unchanged; and when every query fails,
`searchMultipleQueries` returns the empty list instead of an error. -/
theorem searchMultipleQueries_absorbs_failures
    (before after : List (Except Retry.JsError (List Venue))) (e : Retry.JsError)
    (outcomes : List (Except Retry.JsError (List Venue)))
    (hall : ∀ r ∈ outcomes, ∃ err, r = Except.error err) :
    searchMultipleQueries (before ++ Except.error e :: after)
        = searchMultipleQueries (before ++ Except.ok [] :: after) ∧
    searchMultipleQueries outcomes = [] := by
  constructor
  · unfold searchMultipleQueries
    simp [searchAndEnrichVenues]
  · unfold searchMultipleQueries
    apply mergeVenues_all_nil
    intro l hl
    rw [List.mem_map] at hl
    obtain ⟨r, hr, rfl⟩ := hl
    obtain ⟨err, rfl⟩ := hall r hr
    rfl

/-- Witness for `searchMultipleQueries_absorbs_failures`: a single failing query
yields the empty venue list. -/
theorem searchMultipleQueries_absorbs_failures_witness :
    searchMultipleQueries [Except.error Retry.unknownRetryError] = [] :=
  (searchMultipleQueries_absorbs_failures [] [] Retry.unknownRetryError
    [Except.error Retry.unknownRetryError]
    (fun r hr => by
      rw [List.mem_singleton] at hr
      exact ⟨Retry.unknownRetryError, hr⟩)).2

end Search

namespace Retry

/-- If the attempts from `attempt` fail `d` times with retryable errors and then
succeed, with more than `d` loop iterations left, the loop returns the success
value after exactly `d + 1` invocations. -/
theorem retryLoop_ok {T : Type} (outcomes : Nat → Except JsError T)
    (config : RetryConfig) (v : T) :
    ∀ (d attempt remaining : Nat),
      d < remaining → attempt + remaining = config.maxAttempts →
      (∀ i, i < d → ∃ e, outcomes (attempt + i) = Except.error e ∧
        isRetryableError e config = true) →
      outcomes (attempt + d) = Except.ok v →
      retryLoop outcomes config attempt remaining = (Except.ok v, d + 1) := by
  intro d
  induction d with
  | zero =>
    intro attempt remaining h1 _ _ h4
    obtain ⟨r, rfl⟩ : ∃ r, remaining = r + 1 := ⟨remaining - 1, by omega⟩
    rw [Nat.add_zero] at h4
    simp only [retryLoop, h4]
  | succ d ih =>
    intro attempt remaining h1 h2 h3 h4
    obtain ⟨r, rfl⟩ : ∃ r, remaining = r + 1 := ⟨remaining - 1, by omega⟩
    obtain ⟨e, he, hre⟩ := h3 0 (Nat.succ_pos d)
    rw [Nat.add_zero] at he
    have hnl : ¬ (attempt = config.maxAttempts - 1) := by omega
    have hrec : retryLoop outcomes config (attempt + 1) r = (Except.ok v, d + 1) := by
      refine ih (attempt + 1) r (by omega) (by omega) ?_ ?_
      · intro i hi
        obtain ⟨e', he', hre'⟩ := h3 (i + 1) (by omega)
        exact ⟨e', by rw [show attempt + 1 + i = attempt + (i + 1) by omega]; exact he', hre'⟩
      · rw [show attempt + 1 + d = attempt + (d + 1) by omega]
        exact h4
    simp only [retryLoop, he, hre, decide_eq_false hnl, Bool.not_true, Bool.false_or,
      if_neg (Bool.false_ne_true), hrec]

/-- If every remaining attempt fails with a retryable error, the loop exhausts
`remaining` invocations and propagates the error of the last one unchanged. -/
theorem retryLoop_exhaust {T : Type} (outcomes : Nat → Except JsError T)
    (config : RetryConfig) :
    ∀ (remaining attempt : Nat), 1 ≤ remaining →
      attempt + remaining = config.maxAttempts →
      (∀ i, i < remaining → ∃ e, outcomes (attempt + i) = Except.error e ∧
        isRetryableError e config = true) →
      ∃ e, outcomes (attempt + (remaining - 1)) = Except.error e ∧
        retryLoop outcomes config attempt remaining = (Except.error e, remaining) := by
  intro remaining
  induction remaining with
  | zero => intro attempt h1; omega
  | succ r ih =>
    intro attempt _ h2 h3
    rcases Nat.eq_zero_or_pos r with rfl | hr
    · obtain ⟨e, he, hre⟩ := h3 0 Nat.one_pos
      rw [Nat.add_zero] at he
      have hl : attempt = config.maxAttempts - 1 := by omega
      refine ⟨e, by simpa using he, ?_⟩
      simp only [retryLoop, he, hre, decide_eq_true hl, Bool.not_true, Bool.false_or,
        if_true]
    · obtain ⟨e, he, hre⟩ := h3 0 (Nat.succ_pos r)
      rw [Nat.add_zero] at he
      have hnl : ¬ (attempt = config.maxAttempts - 1) := by omega
      obtain ⟨e', he', hrec⟩ := ih (attempt + 1) hr (by omega) (fun i hi => by
        obtain ⟨e'', he'', hre''⟩ := h3 (i + 1) (by omega)
        exact ⟨e'', by rw [show attempt + 1 + i = attempt + (i + 1) by omega]; exact he'',
          hre''⟩)
      refine ⟨e', ?_, ?_⟩
      · rw [show attempt + (r + 1 - 1) = attempt + 1 + (r - 1) by omega]
        exact he'
      · simp only [retryLoop, he, hre, decide_eq_false hnl, Bool.not_true, Bool.false_or,
          if_neg (Bool.false_ne_true), hrec]

/-- C3: `retryWithBackoff` on an operation that fails `k` times with retryable
errors then succeeds: with `maxAttempts > k` it returns the success value after
exactly `k + 1` invocations; with `1 ≤ maxAttempts ≤ k` it performs exactly
`maxAttempts` invocations and propagates the last invocation's error unchanged;
and an operation whose first failure is non-retryable is invoked exactly once,
its error propagating immediately. -/
theorem retryWithBackoff_spec {T : Type} (outcomes : Nat → Except JsError T)
    (config : RetryConfig) (k : Nat) (v : T) (e0 : JsError) :
    ((∀ i, i < k → ∃ e, outcomes i = Except.error e ∧ isRetryableError e config = true) →
      outcomes k = Except.ok v → k < config.maxAttempts →
      retryWithBackoff outcomes config = (Except.ok v, k + 1)) ∧
    ((∀ i, i < k → ∃ e, outcomes i = Except.error e ∧ isRetryableError e config = true) →
      1 ≤ config.maxAttempts → config.maxAttempts ≤ k →
      ∃ e, outcomes (config.maxAttempts - 1) = Except.error e ∧
        retryWithBackoff outcomes config = (Except.error e, config.maxAttempts)) ∧
    (outcomes 0 = Except.error e0 → isRetryableError e0 config = false →
      1 ≤ config.maxAttempts →
      retryWithBackoff outcomes config = (Except.error e0, 1)) := by
  refine ⟨?_, ?_, ?_⟩
  · intro hfail hsucc hlt
    unfold retryWithBackoff
    have := retryLoop_ok outcomes config v k 0 config.maxAttempts hlt (Nat.zero_add _)
      (fun i hi => by simpa using hfail i hi) (by simpa using hsucc)
    exact this
  · intro hfail h1 hle
    unfold retryWithBackoff
    obtain ⟨e, he, hrec⟩ := retryLoop_exhaust outcomes config config.maxAttempts 0 h1
      (Nat.zero_add _) (fun i hi => by simpa using hfail i (by omega))
    exact ⟨e, by simpa using he, hrec⟩
  · intro h0 hnr h1
    obtain ⟨r, hr⟩ : ∃ r, config.maxAttempts = r + 1 := ⟨config.maxAttempts - 1, by omega⟩
    unfold retryWithBackoff
    rw [hr]
    simp only [retryLoop, h0, hnr, Bool.not_false, Bool.true_or, if_true]

/-- Witness for `retryWithBackoff_spec`: one retryable 503 failure then success,
under the default configuration, succeeds on the second invocation. -/
theorem retryWithBackoff_spec_witness :
    retryWithBackoff
      (fun i => if i < 1 then Except.error ⟨some 503, none, none, none⟩
                else Except.ok (7 : Nat))
      DEFAULT_CONFIG = (Except.ok 7, 1 + 1) :=
  (retryWithBackoff_spec
      (fun i => if i < 1 then Except.error ⟨some 503, none, none, none⟩
                else Except.ok (7 : Nat))
      DEFAULT_CONFIG 1 7 ⟨some 503, none, none, none⟩).1
    (fun i hi => ⟨⟨some 503, none, none, none⟩, by
      match i, hi with
      | 0, _ => exact ⟨rfl, by decide⟩⟩)
    rfl (by decide)

end Retry

namespace Cache

theorem mapLookup_mem {β : Type} {k : String} {v : β} :
    ∀ {l : List (String × β)}, mapLookup k l = some v → (k, v) ∈ l := by
  intro l
  induction l with
  | nil => intro h; simp [mapLookup] at h
  | cons kv rest ih =>
    intro h
    obtain ⟨k', v'⟩ := kv
    by_cases hk : k' = k
    · rw [mapLookup, if_pos hk] at h
      subst hk
      injection h with h
      subst h
      exact List.mem_cons_self _ _
    · rw [mapLookup, if_neg hk] at h
      exact List.mem_cons_of_mem _ (ih h)

theorem mapLookup_none_iff {β : Type} {k : String} :
    ∀ {l : List (String × β)}, mapLookup k l = none ↔ k ∉ mapKeys l := by
  intro l
  induction l with
  | nil => simp [mapLookup, mapKeys]
  | cons kv rest ih =>
    obtain ⟨k', v'⟩ := kv
    by_cases hk : k' = k
    · subst hk
      simp [mapLookup, mapKeys]
    · rw [mapLookup, if_neg hk]
      simp only [mapKeys, List.map_cons, List.mem_cons]
      rw [ih]
      constructor
      · rintro h (h1 | h2)
        · exact hk h1.symm
        · exact h h2
      · intro h h2
        exact h (Or.inr h2)

theorem mem_mapSet {β : Type} {k : String} {v : β} :
    ∀ {l : List (String × β)} {kv : String × β},
      kv ∈ mapSet k v l → kv = (k, v) ∨ kv ∈ l := by
  intro l
  induction l with
  | nil => intro kv h; simp [mapSet] at h; exact Or.inl h
  | cons hd rest ih =>
    intro kv h
    obtain ⟨k', v'⟩ := hd
    by_cases hk : k' = k
    · rw [mapSet, if_pos hk] at h
      rcases List.mem_cons.mp h with h1 | h2
      · exact Or.inl h1
      · exact Or.inr (List.mem_cons_of_mem _ h2)
    · rw [mapSet, if_neg hk] at h
      rcases List.mem_cons.mp h with h1 | h2
      · exact Or.inr (h1 ▸ List.mem_cons_self _ _)
      · rcases ih h2 with h3 | h4
        · exact Or.inl h3
        · exact Or.inr (List.mem_cons_of_mem _ h4)

theorem mem_mapKeys_mapSet {β : Type} {a k : String} {v : β} :
    ∀ {l : List (String × β)}, a ∈ mapKeys (mapSet k v l) ↔ a = k ∨ a ∈ mapKeys l := by
  intro l
  induction l with
  | nil => simp [mapSet, mapKeys]
  | cons hd rest ih =>
    obtain ⟨k', v'⟩ := hd
    by_cases hk : k' = k
    · subst hk
      simp [mapSet, mapKeys]
    · rw [mapSet, if_neg hk]
      simp only [mapKeys, List.map_cons, List.mem_cons] at ih ⊢
      rw [ih]
      tauto

theorem mapKeys_cons {β : Type} (kv : String × β) (l : List (String × β)) :
    mapKeys (kv :: l) = kv.1 :: mapKeys l := rfl

theorem nodup_mapSet {β : Type} {k : String} {v : β} :
    ∀ {l : List (String × β)}, (mapKeys l).Nodup → (mapKeys (mapSet k v l)).Nodup := by
  intro l
  induction l with
  | nil => intro _; simp [mapSet, mapKeys]
  | cons hd rest ih =>
    intro h
    obtain ⟨k', v'⟩ := hd
    rw [mapKeys_cons, List.nodup_cons] at h
    obtain ⟨hnotin, hrest⟩ := h
    by_cases hk : k' = k
    · subst hk
      rw [mapSet, if_pos rfl, mapKeys_cons, List.nodup_cons]
      exact ⟨hnotin, hrest⟩
    · rw [mapSet, if_neg hk, mapKeys_cons, List.nodup_cons]
      refine ⟨?_, ih hrest⟩
      intro hmem
      rcases mem_mapKeys_mapSet.mp hmem with h1 | h2
      · exact hk h1
      · exact hnotin h2

theorem mapDelete_sublist {β : Type} (k : String) :
    ∀ (l : List (String × β)), List.Sublist (mapDelete k l) l := by
  intro l
  induction l with
  | nil => exact List.Sublist.refl _
  | cons hd rest ih =>
    obtain ⟨k', v'⟩ := hd
    by_cases hk : k' = k
    · rw [mapDelete, if_pos hk]
      exact List.sublist_cons_self _ _
    · rw [mapDelete, if_neg hk]
      exact ih.cons₂ _

theorem nodup_mapDelete {β : Type} {k : String} {l : List (String × β)}
    (h : (mapKeys l).Nodup) : (mapKeys (mapDelete k l)).Nodup :=
  List.Nodup.sublist (List.Sublist.map Prod.fst (mapDelete_sublist k l)) h

theorem mapLookup_mapSet_self {β : Type} (k : String) (v : β) :
    ∀ (l : List (String × β)), mapLookup k (mapSet k v l) = some v := by
  intro l
  induction l with
  | nil => simp [mapSet, mapLookup]
  | cons hd rest ih =>
    obtain ⟨k', v'⟩ := hd
    by_cases hk : k' = k
    · rw [mapSet, if_pos hk, mapLookup, if_pos rfl]
    · rw [mapSet, if_neg hk, mapLookup, if_neg hk]
      exact ih

theorem mapLookup_mapSet_ne {β : Type} {a k : String} (v : β) (h : a ≠ k) :
    ∀ (l : List (String × β)), mapLookup a (mapSet k v l) = mapLookup a l := by
  intro l
  induction l with
  | nil =>
    simp only [mapSet, mapLookup, if_neg (fun hh : k = a => h hh.symm)]
  | cons hd rest ih =>
    obtain ⟨k', v'⟩ := hd
    by_cases hk : k' = k
    · subst hk
      simp only [mapSet, if_pos rfl, mapLookup, if_neg (fun hh : k' = a => h hh.symm)]
    · rw [mapSet, if_neg hk]
      by_cases ha : k' = a
      · rw [mapLookup, if_pos ha, mapLookup, if_pos ha]
      · rw [mapLookup, if_neg ha, mapLookup, if_neg ha]
        exact ih

theorem mapLookup_mapDelete_ne {β : Type} {a k : String} (h : a ≠ k) :
    ∀ (l : List (String × β)), mapLookup a (mapDelete k l) = mapLookup a l := by
  intro l
  induction l with
  | nil => rfl
  | cons hd rest ih =>
    obtain ⟨k', v'⟩ := hd
    by_cases hk : k' = k
    · subst hk
      rw [mapDelete, if_pos rfl, mapLookup, if_neg (fun hh : k' = a => h hh.symm)]
    · rw [mapDelete, if_neg hk]
      by_cases ha : k' = a
      · rw [mapLookup, if_pos ha, mapLookup, if_pos ha]
      · rw [mapLookup, if_neg ha, mapLookup, if_neg ha]
        exact ih

theorem mapLookup_mapDelete_self {β : Type} {k : String} :
    ∀ {l : List (String × β)}, (mapKeys l).Nodup → mapLookup k (mapDelete k l) = none := by
  intro l
  induction l with
  | nil => intro _; rfl
  | cons hd rest ih =>
    intro h
    obtain ⟨k', v'⟩ := hd
    rw [mapKeys_cons, List.nodup_cons] at h
    obtain ⟨hnotin, hrest⟩ := h
    by_cases hk : k' = k
    · subst hk
      rw [mapDelete, if_pos rfl, mapLookup_none_iff]
      exact hnotin
    · rw [mapDelete, if_neg hk, mapLookup, if_neg hk]
      exact ih hrest

theorem mapLookup_of_mem_nodup {β : Type} {k : String} {v : β} :
    ∀ {l : List (String × β)}, (mapKeys l).Nodup → (k, v) ∈ l →
      mapLookup k l = some v := by
  intro l
  induction l with
  | nil => intro _ h; simp at h
  | cons hd rest ih =>
    intro h hm
    obtain ⟨k', v'⟩ := hd
    rw [mapKeys_cons, List.nodup_cons] at h
    obtain ⟨hnotin, hrest⟩ := h
    rcases List.mem_cons.mp hm with h1 | h2
    · rw [Prod.mk.injEq] at h1
      obtain ⟨h1a, h1b⟩ := h1
      rw [mapLookup, if_pos h1a.symm, h1b]
    · have hkmem : k ∈ mapKeys rest := List.mem_map_of_mem Prod.fst h2
      have hk : k' ≠ k := by
        intro hh
        rw [hh] at hnotin
        exact hnotin hkmem
      rw [mapLookup, if_neg hk]
      exact ih hrest h2

theorem mapSet_of_not_mem {β : Type} {k : String} (v : β) :
    ∀ {l : List (String × β)}, k ∉ mapKeys l → mapSet k v l = l ++ [(k, v)] := by
  intro l
  induction l with
  | nil => intro _; rfl
  | cons hd rest ih =>
    intro h
    obtain ⟨k', v'⟩ := hd
    rw [mapKeys_cons, List.mem_cons] at h
    push_neg at h
    rw [mapSet, if_neg (fun hh : k' = k => h.1 hh.symm), ih h.2, List.cons_append]

theorem length_mapSet_mem {β : Type} {k : String} (v : β) :
    ∀ {l : List (String × β)}, k ∈ mapKeys l → (mapSet k v l).length = l.length := by
  intro l
  induction l with
  | nil => intro h; simp [mapKeys] at h
  | cons hd rest ih =>
    intro h
    obtain ⟨k', v'⟩ := hd
    by_cases hk : k' = k
    · rw [mapSet, if_pos hk, List.length_cons, List.length_cons]
    · rw [mapKeys_cons, List.mem_cons] at h
      rcases h with h1 | h2
      · exact absurd h1.symm hk
      · rw [mapSet, if_neg hk, List.length_cons, List.length_cons, ih h2]

theorem length_mapDelete_mem {β : Type} {k : String} :
    ∀ {l : List (String × β)}, k ∈ mapKeys l → (mapDelete k l).length + 1 = l.length := by
  intro l
  induction l with
  | nil => intro h; simp [mapKeys] at h
  | cons hd rest ih =>
    intro h
    obtain ⟨k', v'⟩ := hd
    by_cases hk : k' = k
    · rw [mapDelete, if_pos hk, List.length_cons]
    · rw [mapKeys_cons, List.mem_cons] at h
      rcases h with h1 | h2
      · exact absurd h1.symm hk
      · rw [mapDelete, if_neg hk, List.length_cons, List.length_cons, ih h2]

theorem countP_mapDelete_ge {β : Type} (p : String × β → Bool) (k : String) :
    ∀ (l : List (String × β)), l.countP p ≤ (mapDelete k l).countP p + 1 := by
  intro l
  induction l with
  | nil => simp [mapDelete]
  | cons hd rest ih =>
    obtain ⟨k', v'⟩ := hd
    by_cases hk : k' = k
    · rw [mapDelete, if_pos hk]
      rw [List.countP_cons]
      split <;> omega
    · rw [mapDelete, if_neg hk, List.countP_cons, List.countP_cons]
      split <;> omega

theorem scanFold_isSome {T : Type} :
    ∀ (l : List (String × CacheEntry T)) (acc : Option (String × Int)),
      acc.isSome = true → (l.foldl scanStep acc).isSome = true := by
  intro l
  induction l with
  | nil => intro acc h; exact h
  | cons kv rest ih =>
    intro acc h
    rw [List.foldl_cons]
    apply ih
    match acc with
    | none => simp at h
    | some best =>
      rw [scanStep]
      split <;> rfl

theorem scanOldest_isSome {T : Type} {l : List (String × CacheEntry T)} (h : l ≠ []) :
    (scanOldest l).isSome = true := by
  match l with
  | [] => exact absurd rfl h
  | kv :: rest =>
    rw [scanOldest, List.foldl_cons]
    exact scanFold_isSome rest _ rfl

theorem scanFold_mem {T : Type} {k : String} {t : Int} :
    ∀ (l : List (String × CacheEntry T)) (acc : Option (String × Int)),
      l.foldl scanStep acc = some (k, t) →
      acc = some (k, t) ∨ ∃ e, (k, e) ∈ l ∧ e.accessTime = t := by
  intro l
  induction l with
  | nil => intro acc h; exact Or.inl h
  | cons kv rest ih =>
    intro acc h
    rw [List.foldl_cons] at h
    rcases ih (scanStep acc kv) h with h1 | h2
    · match acc with
      | none =>
        rw [scanStep] at h1
        injection h1 with h1
        have hk1 : kv.1 = k := congrArg Prod.fst h1
        have ht1 : kv.2.accessTime = t := congrArg Prod.snd h1
        refine Or.inr ⟨kv.2, ?_, ht1⟩
        rw [← hk1]
        exact List.mem_cons_self _ _
      | some best =>
        rw [scanStep] at h1
        split at h1
        · injection h1 with h1
          have hk1 : kv.1 = k := congrArg Prod.fst h1
          have ht1 : kv.2.accessTime = t := congrArg Prod.snd h1
          refine Or.inr ⟨kv.2, ?_, ht1⟩
          rw [← hk1]
          exact List.mem_cons_self _ _
        · injection h1 with h1
          exact Or.inl (by rw [h1])
    · obtain ⟨e, he, het⟩ := h2
      exact Or.inr ⟨e, List.mem_cons_of_mem _ he, het⟩

theorem scanFold_min {T : Type} {k : String} {t : Int} :
    ∀ (l : List (String × CacheEntry T)) (acc : Option (String × Int)),
      l.foldl scanStep acc = some (k, t) →
      (∀ b, acc = some b → t ≤ b.2) ∧ (∀ kv ∈ l, t ≤ kv.2.accessTime) := by
  intro l
  induction l with
  | nil =>
    intro acc h
    refine ⟨?_, by intro kv hkv; simp at hkv⟩
    intro b hb
    rw [List.foldl_nil, hb] at h
    injection h with h
    rw [h]
  | cons kv rest ih =>
    intro acc h
    rw [List.foldl_cons] at h
    obtain ⟨ihacc, ihrest⟩ := ih (scanStep acc kv) h
    have hstep : ∀ b, scanStep acc kv = some b → b.2 ≤ kv.2.accessTime ∧
        (∀ b0, acc = some b0 → b.2 ≤ b0.2) := by
      intro b hb
      match acc with
      | none =>
        rw [scanStep] at hb
        injection hb with hb
        exact ⟨by rw [← hb], by intro b0 hb0; simp at hb0⟩
      | some best =>
        rw [scanStep] at hb
        split at hb
        · rename_i hlt
          injection hb with hb
          rw [← hb]
          exact ⟨le_refl _, by intro b0 hb0; injection hb0 with hb0; rw [← hb0]; omega⟩
        · rename_i hlt
          injection hb with hb
          rw [← hb]
          exact ⟨by omega, by intro b0 hb0; injection hb0 with hb0; rw [← hb0]⟩
    have hsome : (scanStep acc kv).isSome = true := by
      match acc with
      | none => rfl
      | some best => rw [scanStep]; split <;> rfl
    obtain ⟨b, hb⟩ := Option.isSome_iff_exists.mp hsome
    obtain ⟨hble, hbacc⟩ := hstep b hb
    have htb : t ≤ b.2 := ihacc b hb
    constructor
    · intro b0 hb0
      exact le_trans htb (hbacc b0 hb0)
    · intro kv' hkv'
      rcases List.mem_cons.mp hkv' with h1 | h2
      · rw [h1]
        exact le_trans htb hble
      · exact ihrest kv' h2

theorem scanOldest_mem {T : Type} {l : List (String × CacheEntry T)} {k : String}
    {t : Int} (h : scanOldest l = some (k, t)) :
    ∃ e, (k, e) ∈ l ∧ e.accessTime = t := by
  rcases scanFold_mem l none h with h1 | h2
  · simp at h1
  · exact h2

theorem scanOldest_min {T : Type} {l : List (String × CacheEntry T)} {k : String}
    {t : Int} (h : scanOldest l = some (k, t)) :
    ∀ kv ∈ l, t ≤ kv.2.accessTime :=
  (scanFold_min l none h).2

theorem evictLRU_scan_some_ne {T : Type} {c : LRUCache T} {k : String} {t : Int}
    (hscan : scanOldest c.cache = some (k, t)) (hk : k ≠ "") :
    c.evictLRU = { c with cache := mapDelete k c.cache, evictions := c.evictions + 1 } := by
  rw [LRUCache.evictLRU, hscan]
  exact if_pos hk

theorem evictLRU_scan_some_empty {T : Type} {c : LRUCache T} {t : Int}
    (hscan : scanOldest c.cache = some ("", t)) : c.evictLRU = c := by
  rw [LRUCache.evictLRU, hscan]
  exact if_neg (fun h => h rfl)

theorem evictLRU_scan_none {T : Type} {c : LRUCache T}
    (hscan : scanOldest c.cache = none) : c.evictLRU = c := by
  rw [LRUCache.evictLRU, hscan]

/-- On a nonempty map whose keys are all nonempty, `evictLRU` removes exactly one
entry — the scan result, whose `accessTime` is minimal — and counts one eviction. -/
theorem evictLRU_removes_one {T : Type} {c : LRUCache T}
    (hkeys : ∀ k ∈ mapKeys c.cache, k ≠ "") (hne : c.cache ≠ []) :
    (c.evictLRU).cache.length + 1 = c.cache.length ∧
      (c.evictLRU).evictions = c.evictions + 1 ∧
      (c.evictLRU).maxSize = c.maxSize := by
  obtain ⟨⟨k, t⟩, hscan⟩ := Option.isSome_iff_exists.mp (scanOldest_isSome hne)
  obtain ⟨e, hmem, _⟩ := scanOldest_mem hscan
  have hkmem : k ∈ mapKeys c.cache := List.mem_map_of_mem Prod.fst hmem
  have hk : k ≠ "" := hkeys k hkmem
  rw [evictLRU_scan_some_ne hscan hk]
  exact ⟨length_mapDelete_mem hkmem, rfl, rfl⟩

theorem evictLRU_maxSize {T : Type} (c : LRUCache T) :
    (c.evictLRU).maxSize = c.maxSize := by
  rw [LRUCache.evictLRU]
  rcases hscan : scanOldest c.cache with _ | ⟨k, t⟩
  · rfl
  · dsimp only
    split <;> rfl

theorem evictLRU_keys_subset {T : Type} (c : LRUCache T) :
    mapKeys (c.evictLRU).cache ⊆ mapKeys c.cache := by
  rw [LRUCache.evictLRU]
  rcases hscan : scanOldest c.cache with _ | ⟨k, t⟩
  · exact fun a ha => ha
  · dsimp only
    split
    · exact fun a ha => (List.Sublist.map Prod.fst (mapDelete_sublist k c.cache)).mem ha
    · exact fun a ha => ha

theorem evictLRU_nodup {T : Type} (c : LRUCache T)
    (h : (mapKeys c.cache).Nodup) : (mapKeys (c.evictLRU).cache).Nodup := by
  rw [LRUCache.evictLRU]
  rcases hscan : scanOldest c.cache with _ | ⟨k, t⟩
  · exact h
  · dsimp only
    split
    · exact nodup_mapDelete h
    · exact h

theorem evictLRU_length_le {T : Type} (c : LRUCache T) :
    (c.evictLRU).cache.length ≤ c.cache.length := by
  rw [LRUCache.evictLRU]
  rcases hscan : scanOldest c.cache with _ | ⟨k, t⟩
  · exact le_refl _
  · dsimp only
    split
    · exact List.Sublist.length_le (mapDelete_sublist k c.cache)
    · exact le_refl _

theorem get_lookup_none {T : Type} {c : LRUCache T} {key : String} (now : Int)
    (h : mapLookup key c.cache = none) :
    c.get key now = (none, { c with misses := c.misses + 1 }) := by
  rw [LRUCache.get, h]

theorem get_expired {T : Type} {c : LRUCache T} {key : String} {now : Int}
    {e : CacheEntry T} (h : mapLookup key c.cache = some e) (hexp : now > e.expires) :
    c.get key now
      = (none, { c with cache := mapDelete key c.cache, misses := c.misses + 1 }) := by
  rw [LRUCache.get, h]
  exact if_pos hexp

theorem get_hit {T : Type} {c : LRUCache T} {key : String} {now : Int}
    {e : CacheEntry T} (h : mapLookup key c.cache = some e) (hexp : ¬ now > e.expires) :
    c.get key now
      = (some e.value,
         { c with cache := mapSet key { e with accessTime := now } c.cache,
                  hits := c.hits + 1 }) := by
  rw [LRUCache.get, h]
  exact if_neg hexp

theorem set_eq_evict {T : Type} {c : LRUCache T} {key : String}
    (hcond : c.maxSize ≤ c.cache.length ∧ (mapLookup key c.cache).isNone)
    (v : T) (ttl now : Int) :
    c.set key v ttl now
      = { c.evictLRU with
          cache := mapSet key ⟨v, now + ttl, now⟩ (c.evictLRU).cache } := by
  simp only [LRUCache.set, if_pos hcond]

theorem set_eq_no_evict {T : Type} {c : LRUCache T} {key : String}
    (hcond : ¬ (c.maxSize ≤ c.cache.length ∧ (mapLookup key c.cache).isNone))
    (v : T) (ttl now : Int) :
    c.set key v ttl now
      = { c with cache := mapSet key ⟨v, now + ttl, now⟩ c.cache } := by
  simp only [LRUCache.set, if_neg hcond]

theorem length_mapSet_le {β : Type} (k : String) (v : β) :
    ∀ (l : List (String × β)), (mapSet k v l).length ≤ l.length + 1 := by
  intro l
  induction l with
  | nil => simp [mapSet]
  | cons hd rest ih =>
    obtain ⟨k', v'⟩ := hd
    by_cases hk : k' = k
    · rw [mapSet, if_pos hk, List.length_cons, List.length_cons]
      omega
    · rw [mapSet, if_neg hk, List.length_cons, List.length_cons]
      omega

/-- One trace step preserves the structural cache invariant: fixed `maxSize`,
pairwise-distinct keys, nonempty keys, size bounded by `maxSize`. -/
theorem applyOp_invariant {T : Type} {m : Nat} (c : LRUCache T) (op : CacheOp T)
    (hmax : c.maxSize = m)
    (hnodup : (mapKeys c.cache).Nodup)
    (hkeys : ∀ k ∈ mapKeys c.cache, k ≠ "")
    (hlen : c.cache.length ≤ m)
    (hop : op.key ≠ "")
    (hm : 1 ≤ m) :
    (applyOp c op).maxSize = m ∧
    (mapKeys (applyOp c op).cache).Nodup ∧
    (∀ k ∈ mapKeys (applyOp c op).cache, k ≠ "") ∧
    (applyOp c op).cache.length ≤ m := by
  cases op with
  | get k now =>
    rcases hlook : mapLookup k c.cache with _ | e
    · rw [applyOp, get_lookup_none now hlook]
      exact ⟨hmax, hnodup, hkeys, hlen⟩
    · by_cases hexp : now > e.expires
      · rw [applyOp, get_expired hlook hexp]
        refine ⟨hmax, nodup_mapDelete hnodup, ?_, ?_⟩
        · intro a ha
          exact hkeys a ((List.Sublist.map Prod.fst (mapDelete_sublist k c.cache)).mem ha)
        · exact le_trans (List.Sublist.length_le (mapDelete_sublist k c.cache)) hlen
      · rw [applyOp, get_hit hlook hexp]
        have hkmem : k ∈ mapKeys c.cache :=
          List.mem_map_of_mem Prod.fst (mapLookup_mem hlook)
        refine ⟨hmax, nodup_mapSet hnodup, ?_, ?_⟩
        · intro a ha
          rcases mem_mapKeys_mapSet.mp ha with h1 | h2
          · rw [h1]; exact hkeys k hkmem
          · exact hkeys a h2
        · rw [length_mapSet_mem _ hkmem]
          exact hlen
  | set k v ttl now =>
    have hopk : k ≠ "" := hop
    by_cases hcond : c.maxSize ≤ c.cache.length ∧ (mapLookup k c.cache).isNone
    · rw [applyOp, set_eq_evict hcond v ttl now]
      have hfull : c.cache.length = m := le_antisymm hlen (hmax ▸ hcond.1)
      have hne : c.cache ≠ [] := by
        intro hnil
        rw [hnil] at hfull
        simp at hfull
        omega
      obtain ⟨hevlen, _, hevmax⟩ := evictLRU_removes_one hkeys hne
      refine ⟨by rw [hevmax, hmax], nodup_mapSet (evictLRU_nodup c hnodup), ?_, ?_⟩
      · intro a ha
        rcases mem_mapKeys_mapSet.mp ha with h1 | h2
        · rw [h1]; exact hopk
        · exact hkeys a (evictLRU_keys_subset c h2)
      · calc (mapSet k ⟨v, now + ttl, now⟩ (c.evictLRU).cache).length
            ≤ (c.evictLRU).cache.length + 1 := length_mapSet_le _ _ _
          _ = c.cache.length := hevlen
          _ ≤ m := hlen
    · rw [applyOp, set_eq_no_evict hcond v ttl now]
      refine ⟨hmax, nodup_mapSet hnodup, ?_, ?_⟩
      · intro a ha
        rcases mem_mapKeys_mapSet.mp ha with h1 | h2
        · rw [h1]; exact hopk
        · exact hkeys a h2
      · rcases hlook : mapLookup k c.cache with _ | e
        · have hlt : ¬ (c.maxSize ≤ c.cache.length) := by
            intro hge
            exact hcond ⟨hge, by rw [hlook]; rfl⟩
          rw [hmax] at hlt
          calc (mapSet k ⟨v, now + ttl, now⟩ c.cache).length
              ≤ c.cache.length + 1 := length_mapSet_le _ _ _
            _ ≤ m := by omega
        · have hkmem : k ∈ mapKeys c.cache :=
            List.mem_map_of_mem Prod.fst (mapLookup_mem hlook)
          rw [length_mapSet_mem _ hkmem]
          exact hlen

/-- The structural cache invariant holds along every trace. -/
theorem applyOps_invariant {T : Type} {m : Nat} :
    ∀ (ops : List (CacheOp T)) (c : LRUCache T),
      c.maxSize = m →
      (mapKeys c.cache).Nodup →
      (∀ k ∈ mapKeys c.cache, k ≠ "") →
      c.cache.length ≤ m →
      (∀ op ∈ ops, op.key ≠ "") →
      1 ≤ m →
      (applyOps c ops).maxSize = m ∧
      (mapKeys (applyOps c ops).cache).Nodup ∧
      (∀ k ∈ mapKeys (applyOps c ops).cache, k ≠ "") ∧
      (applyOps c ops).cache.length ≤ m := by
  intro ops
  induction ops with
  | nil => intro c h1 h2 h3 h4 _ _; exact ⟨h1, h2, h3, h4⟩
  | cons op rest ih =>
    intro c h1 h2 h3 h4 hops hm
    obtain ⟨g1, g2, g3, g4⟩ :=
      applyOp_invariant c op h1 h2 h3 h4 (hops op (List.mem_cons_self _ _)) hm
    exact ih (applyOp c op) g1 g2 g3 g4
      (fun op' hop' => hops op' (List.mem_cons_of_mem _ hop')) hm

theorem evictLRU_cache_subset {T : Type} (c : LRUCache T) :
    ∀ kv ∈ (c.evictLRU).cache, kv ∈ c.cache := by
  rw [LRUCache.evictLRU]
  rcases hscan : scanOldest c.cache with _ | ⟨k, t⟩
  · exact fun kv h => h
  · dsimp only
    split
    · exact fun kv h => (mapDelete_sublist k c.cache).subset h
    · exact fun kv h => h

/-- One trace step preserves key uniqueness (no other side conditions needed). -/
theorem applyOp_nodup {T : Type} (c : LRUCache T) (op : CacheOp T)
    (h : (mapKeys c.cache).Nodup) : (mapKeys (applyOp c op).cache).Nodup := by
  cases op with
  | get k now =>
    rcases hlook : mapLookup k c.cache with _ | e
    · rw [applyOp, get_lookup_none now hlook]
      exact h
    · by_cases hexp : now > e.expires
      · rw [applyOp, get_expired hlook hexp]
        exact nodup_mapDelete h
      · rw [applyOp, get_hit hlook hexp]
        exact nodup_mapSet h
  | set k v ttl now =>
    by_cases hcond : c.maxSize ≤ c.cache.length ∧ (mapLookup k c.cache).isNone
    · rw [applyOp, set_eq_evict hcond v ttl now]
      exact nodup_mapSet (evictLRU_nodup c h)
    · rw [applyOp, set_eq_no_evict hcond v ttl now]
      exact nodup_mapSet h

theorem applyOps_nodup {T : Type} :
    ∀ (ops : List (CacheOp T)) (c : LRUCache T),
      (mapKeys c.cache).Nodup → (mapKeys (applyOps c ops).cache).Nodup := by
  intro ops
  induction ops with
  | nil => intro c h; exact h
  | cons op rest ih => intro c h; exact ih (applyOp c op) (applyOp_nodup c op h)

/-- One trace step preserves entry provenance: every live entry's value and
expiry come from some `set` of its key in the trace, with
`expires = set time + TTL`. -/
theorem applyOp_provenance {T : Type} (OPS : List (CacheOp T)) (c : LRUCache T)
    (op : CacheOp T)
    (hop : ∀ (k : String) (v : T) (ttl ts : Int),
      op = CacheOp.set k v ttl ts → CacheOp.set k v ttl ts ∈ OPS)
    (hc : ∀ kv ∈ c.cache, ∃ ts ttl,
      CacheOp.set kv.1 kv.2.value ttl ts ∈ OPS ∧ kv.2.expires = ts + ttl) :
    ∀ kv ∈ (applyOp c op).cache, ∃ ts ttl,
      CacheOp.set kv.1 kv.2.value ttl ts ∈ OPS ∧ kv.2.expires = ts + ttl := by
  cases op with
  | get k now =>
    rcases hlook : mapLookup k c.cache with _ | e
    · rw [applyOp, get_lookup_none now hlook]
      exact hc
    · by_cases hexp : now > e.expires
      · rw [applyOp, get_expired hlook hexp]
        exact fun kv hkv => hc kv ((mapDelete_sublist k c.cache).subset hkv)
      · rw [applyOp, get_hit hlook hexp]
        intro kv hkv
        rcases mem_mapSet hkv with rfl | hm
        · exact hc (k, e) (mapLookup_mem hlook)
        · exact hc kv hm
  | set k v ttl now =>
    have hnew : ∃ ts ttl',
        CacheOp.set k ((⟨v, now + ttl, now⟩ : CacheEntry T)).value ttl' ts ∈ OPS ∧
          ((⟨v, now + ttl, now⟩ : CacheEntry T)).expires = ts + ttl' :=
      ⟨now, ttl, hop k v ttl now rfl, rfl⟩
    by_cases hcond : c.maxSize ≤ c.cache.length ∧ (mapLookup k c.cache).isNone
    · rw [applyOp, set_eq_evict hcond v ttl now]
      intro kv hkv
      rcases mem_mapSet hkv with rfl | hm
      · exact hnew
      · exact hc kv (evictLRU_cache_subset c kv hm)
    · rw [applyOp, set_eq_no_evict hcond v ttl now]
      intro kv hkv
      rcases mem_mapSet hkv with rfl | hm
      · exact hnew
      · exact hc kv hm

/-- Entry provenance holds along every trace from the empty cache. -/
theorem applyOps_provenance {T : Type} (OPS : List (CacheOp T)) :
    ∀ (ops : List (CacheOp T)) (c : LRUCache T),
      (∀ op ∈ ops, op ∈ OPS) →
      (∀ kv ∈ c.cache, ∃ ts ttl,
        CacheOp.set kv.1 kv.2.value ttl ts ∈ OPS ∧ kv.2.expires = ts + ttl) →
      ∀ kv ∈ (applyOps c ops).cache, ∃ ts ttl,
        CacheOp.set kv.1 kv.2.value ttl ts ∈ OPS ∧ kv.2.expires = ts + ttl := by
  intro ops
  induction ops with
  | nil => intro c _ hc; exact hc
  | cons op rest ih =>
    intro c hsub hc
    refine ih (applyOp c op) (fun op' h' => hsub op' (List.mem_cons_of_mem _ h')) ?_
    exact applyOp_provenance OPS c op
      (fun k v ttl ts heq => heq ▸ hsub op (List.mem_cons_self _ _)) hc

/-- C2: along every `set`/`get` trace from the empty cache, a `get` never
returns a value whose TTL has elapsed — a returned value was stored by a `set`
of that key whose `set time + TTL` is at or after the `get` time — and a `get`
that finds an expired entry reports a miss and deletes the entry. -/
theorem lru_get_ttl {T : Type} (m : Nat) (ops : List (CacheOp T)) (key : String)
    (now : Int) :
    (∀ v, ((applyOps (emptyLRU T m) ops).get key now).1 = some v →
      ∃ ts ttl, CacheOp.set key v ttl ts ∈ ops ∧ now ≤ ts + ttl) ∧
    (∀ e, mapLookup key (applyOps (emptyLRU T m) ops).cache = some e →
      now > e.expires →
      ((applyOps (emptyLRU T m) ops).get key now).1 = none ∧
      mapLookup key (((applyOps (emptyLRU T m) ops).get key now).2).cache = none) := by
  have hprov := applyOps_provenance ops ops (emptyLRU T m) (fun op h => h)
    (by intro kv hkv; simp [emptyLRU] at hkv)
  have hnodup := applyOps_nodup ops (emptyLRU T m) (by simp [emptyLRU, mapKeys])
  constructor
  · intro v hv
    rcases hlook : mapLookup key (applyOps (emptyLRU T m) ops).cache with _ | e
    · rw [get_lookup_none now hlook] at hv
      exact absurd hv (by simp)
    · by_cases hexp : now > e.expires
      · rw [get_expired hlook hexp] at hv
        exact absurd hv (by simp)
      · rw [get_hit hlook hexp] at hv
        have hveq : e.value = v := by
          injection hv with hv
        obtain ⟨ts, ttl, hin, hexpires⟩ := hprov (key, e) (mapLookup_mem hlook)
        refine ⟨ts, ttl, hveq ▸ hin, ?_⟩
        have hle : now ≤ e.expires := by omega
        rw [hexpires] at hle
        exact hle
  · intro e hlook hexp
    rw [get_expired hlook hexp]
    exact ⟨rfl, mapLookup_mapDelete_self hnodup⟩

/-- Witness for `lru_get_ttl`: after `set` with TTL 100 at time 0, a `get` at
time 150 misses and removes the entry. -/
theorem lru_get_ttl_witness :
    ((applyOps (emptyLRU Nat 1) [CacheOp.set "k" 42 100 0]).get "k" 150).1 = none ∧
    mapLookup "k"
      (((applyOps (emptyLRU Nat 1) [CacheOp.set "k" 42 100 0]).get "k" 150).2).cache
      = none :=
  (lru_get_ttl 1 [CacheOp.set "k" 42 100 0] "k" 150).2 ⟨42, 100, 0⟩ (by decide) (by decide)

/-- With pairwise-distinct keys, the entries whose key differs from `k` number
at least `length - 1`, so if they all satisfy `p` then so does the count. -/
theorem countP_ge_of_ne_key {β : Type} (p : String × β → Bool) (k : String) :
    ∀ (l : List (String × β)), (mapKeys l).Nodup →
      (∀ kv ∈ l, kv.1 ≠ k → p kv = true) → l.length ≤ l.countP p + 1 := by
  intro l
  induction l with
  | nil => intro _ _; simp
  | cons kv rest ih =>
    intro hnodup hp
    rw [mapKeys_cons, List.nodup_cons] at hnodup
    obtain ⟨hnotin, hrest⟩ := hnodup
    by_cases hk : kv.1 = k
    · have hall : ∀ kv' ∈ rest, p kv' = true := by
        intro kv' hkv'
        refine hp kv' (List.mem_cons_of_mem _ hkv') ?_
        intro heq
        rw [← hk] at heq
        exact hnotin (heq ▸ List.mem_map_of_mem Prod.fst hkv')
      have hlen : rest.countP p = rest.length := List.countP_eq_length.mpr hall
      rw [List.length_cons, List.countP_cons, hlen]
      split <;> omega
    · have hpkv : p kv = true := hp kv (List.mem_cons_self _ _) hk
      have := ih hrest (fun kv' hkv' => hp kv' (List.mem_cons_of_mem _ hkv'))
      rw [List.length_cons, List.countP_cons, hpkv, if_pos rfl]
      omega

/-- Survival of a most-recently-accessed entry: as long as each inserted key is
fresh and at least as recent as `t`, and the free slots plus the strictly older
entries outnumber the remaining insertions, the entry of `key` (with
`accessTime = t`) is never the eviction scan's pick — an insertion either
consumes a free slot without evicting, or evicts an entry strictly older than
`t` — so it stays in the cache untouched. -/
theorem lru_survive {T : Type} :
    ∀ (sets : List (String × T × Int × Int)) (c : LRUCache T) (key : String)
      (t : Int) (ek : CacheEntry T),
      (mapKeys c.cache).Nodup →
      mapLookup key c.cache = some ek →
      ek.accessTime = t →
      sets.length ≤ (c.maxSize - c.cache.length)
        + c.cache.countP (fun kv => decide (kv.2.accessTime < t)) →
      (∀ q ∈ sets, t ≤ q.2.2.2) →
      (∀ q ∈ sets, q.1 ∉ mapKeys c.cache) →
      (sets.map (fun q => q.1)).Pairwise (· ≠ ·) →
      mapLookup key
        (applyOps c (sets.map (fun q => CacheOp.set q.1 q.2.1 q.2.2.1 q.2.2.2))).cache
        = some ek := by
  intro sets
  induction sets with
  | nil =>
    intro c key t ek _ hlook _ _ _ _ _
    exact hlook
  | cons q rest ih =>
    intro c key t ek hnodup hlook hacc hcount htimes hfresh hpair
    have hkeymem : key ∈ mapKeys c.cache :=
      List.mem_map_of_mem Prod.fst (mapLookup_mem hlook)
    have hqfresh : q.1 ∉ mapKeys c.cache := hfresh q (List.mem_cons_self _ _)
    have hkeyne : key ≠ q.1 := fun h => hqfresh (h ▸ hkeymem)
    have hqnow : t ≤ q.2.2.2 := htimes q (List.mem_cons_self _ _)
    rw [List.map_cons, List.pairwise_cons] at hpair
    rw [List.length_cons] at hcount
    -- facts about the state after one `set`
    have hmain : ∀ (c1 : LRUCache T),
        (mapKeys c1.cache).Nodup →
        mapLookup key c1.cache = some ek →
        rest.length ≤ (c1.maxSize - c1.cache.length)
          + c1.cache.countP (fun kv => decide (kv.2.accessTime < t)) →
        (∀ k1 ∈ mapKeys c1.cache, k1 ∈ mapKeys c.cache ∨ k1 = q.1) →
        mapLookup key
          (applyOps c1 (rest.map (fun q' => CacheOp.set q'.1 q'.2.1 q'.2.2.1 q'.2.2.2))).cache
          = some ek := by
      intro c1 g1 g2 g3 g4
      refine ih c1 key t ek g1 g2 hacc g3
        (fun q' hq' => htimes q' (List.mem_cons_of_mem _ hq')) ?_ ?_
      · intro q' hq' hq'mem
        rcases g4 q'.1 hq'mem with hin | heq
        · exact hfresh q' (List.mem_cons_of_mem _ hq') hin
        · exact hpair.1 q'.1 (List.mem_map_of_mem _ hq') heq.symm
      · exact hpair.2
    rw [List.map_cons]
    show mapLookup key (applyOps (applyOp c (CacheOp.set q.1 q.2.1 q.2.2.1 q.2.2.2))
      (rest.map (fun q' => CacheOp.set q'.1 q'.2.1 q'.2.2.1 q'.2.2.2))).cache = some ek
    by_cases hcond : c.maxSize ≤ c.cache.length ∧ (mapLookup q.1 c.cache).isNone
    · rw [applyOp, set_eq_evict hcond]
      -- the cache is at capacity, so no free slot remains and the older
      -- entries alone outnumber the remaining insertions
      have hcount1 : rest.length + 1
          ≤ c.cache.countP (fun kv => decide (kv.2.accessTime < t)) := by
        have hge := hcond.1
        omega
      obtain ⟨old, holdmem, holdp⟩ :=
        List.countP_pos_iff.mp (by omega : 0 < c.cache.countP
          (fun kv => decide (kv.2.accessTime < t)))
      have holdlt : old.2.accessTime < t := of_decide_eq_true holdp
      have hne : c.cache ≠ [] := by
        intro hnil
        rw [hnil] at holdmem
        exact absurd holdmem (List.not_mem_nil old)
      obtain ⟨⟨k₀, t₀⟩, hscan⟩ := Option.isSome_iff_exists.mp (scanOldest_isSome hne)
      obtain ⟨e₀, he₀mem, he₀t⟩ := scanOldest_mem hscan
      have hk₀mem : k₀ ∈ mapKeys c.cache := List.mem_map_of_mem Prod.fst he₀mem
      have ht₀ : t₀ < t := lt_of_le_of_lt (scanOldest_min hscan old holdmem) holdlt
      have hk₀ne : k₀ ≠ key := by
        intro heq
        rw [heq] at he₀mem
        have : mapLookup key c.cache = some e₀ := mapLookup_of_mem_nodup hnodup he₀mem
        rw [hlook] at this
        injection this with this
        rw [← this, hacc] at he₀t
        omega
      by_cases hk₀ : k₀ = ""
      · rw [hk₀] at hscan
        rw [evictLRU_scan_some_empty hscan]
        apply hmain
        · exact nodup_mapSet hnodup
        · rw [mapLookup_mapSet_ne _ hkeyne]
          exact hlook
        · dsimp only
          rw [mapSet_of_not_mem _ hqfresh, List.countP_append, List.countP_singleton,
            List.length_append, List.length_singleton]
          split <;> omega
        · intro k1 hk1
          rcases mem_mapKeys_mapSet.mp hk1 with h1 | h2
          · exact Or.inr h1
          · exact Or.inl h2
      · rw [evictLRU_scan_some_ne hscan hk₀]
        have hqfresh' : q.1 ∉ mapKeys (mapDelete k₀ c.cache) := by
          intro hmem
          exact hqfresh ((List.Sublist.map Prod.fst (mapDelete_sublist k₀ c.cache)).mem hmem)
        apply hmain
        · exact nodup_mapSet (nodup_mapDelete hnodup)
        · rw [mapLookup_mapSet_ne _ hkeyne, mapLookup_mapDelete_ne (Ne.symm hk₀ne)]
          exact hlook
        · dsimp only
          rw [mapSet_of_not_mem _ hqfresh', List.countP_append, List.countP_singleton,
            List.length_append, List.length_singleton]
          have hdel := countP_mapDelete_ge
            (fun kv : String × CacheEntry T => decide (kv.2.accessTime < t)) k₀ c.cache
          have hdlen : (mapDelete k₀ c.cache).length + 1 = c.cache.length :=
            length_mapDelete_mem hk₀mem
          split <;> omega
        · intro k1 hk1
          rcases mem_mapKeys_mapSet.mp hk1 with h1 | h2
          · exact Or.inr h1
          · exact Or.inl
              ((List.Sublist.map Prod.fst (mapDelete_sublist k₀ c.cache)).mem h2)
    · rw [applyOp, set_eq_no_evict hcond]
      -- below capacity: the insertion consumes a free slot, no eviction runs
      have hlookq : mapLookup q.1 c.cache = none := mapLookup_none_iff.mpr hqfresh
      have hlt : ¬ c.maxSize ≤ c.cache.length := by
        intro hge
        exact hcond ⟨hge, by rw [hlookq]; rfl⟩
      apply hmain
      · exact nodup_mapSet hnodup
      · rw [mapLookup_mapSet_ne _ hkeyne]
        exact hlook
      · dsimp only
        rw [mapSet_of_not_mem _ hqfresh, List.countP_append, List.countP_singleton,
          List.length_append, List.length_singleton]
        split <;> omega
      · intro k1 hk1
        rcases mem_mapKeys_mapSet.mp hk1 with h1 | h2
        · exact Or.inr h1
        · exact Or.inl h2

/-- C5, counterexample: with `maxSize = 1`, caching under the empty-string key
and then a fresh key leaves two live entries.  The eviction guard
`if (oldestKey)` treats the empty-string key as falsy, so no entry is evicted
and the bound `maxSize` is exceeded. -/
theorem lru_maxSize_counterexample :
    ¬ ((applyOps (emptyLRU Nat 1)
          [CacheOp.set "" 1 1000 0, CacheOp.set "a" 2 1000 1]).cache.length
        ≤ (emptyLRU Nat 1).maxSize) := by
  decide

/-- C5, amended: for traces whose keys are all nonempty, on a cache with
`maxSize ≥ 1`, the number of live entries never exceeds `maxSize`, and a `set`
of an absent key on a full cache evicts exactly one entry first, ending with
exactly `maxSize` entries. -/
theorem lru_bounded_size {T : Type} (m : Nat) (ops : List (CacheOp T))
    (key : String) (v : T) (ttl now : Int)
    (hm : 1 ≤ m)
    (hops : ∀ op ∈ ops, op.key ≠ "")
    (hkey : key ≠ "") :
    (applyOps (emptyLRU T m) ops).cache.length ≤ m ∧
    ((applyOps (emptyLRU T m) ops).cache.length = m →
      mapLookup key (applyOps (emptyLRU T m) ops).cache = none →
      ((applyOps (emptyLRU T m) ops).set key v ttl now).cache.length = m ∧
      ((applyOps (emptyLRU T m) ops).set key v ttl now).evictions
        = (applyOps (emptyLRU T m) ops).evictions + 1) := by
  obtain ⟨hmax, hnodup, hkeys, hlen⟩ :=
    applyOps_invariant (m := m) ops (emptyLRU T m) rfl (by simp [emptyLRU, mapKeys])
      (by simp [emptyLRU, mapKeys]) (by simp [emptyLRU]) hops hm
  refine ⟨hlen, ?_⟩
  intro hfull hlook
  set c := applyOps (emptyLRU T m) ops with hc
  have hcond : c.maxSize ≤ c.cache.length ∧ (mapLookup key c.cache).isNone := by
    constructor
    · rw [hmax, hfull]
    · rw [hlook]; rfl
  rw [set_eq_evict hcond v ttl now]
  have hne : c.cache ≠ [] := by
    intro hnil
    rw [hnil] at hfull
    simp at hfull
    omega
  obtain ⟨hevlen, hevcount, _⟩ := evictLRU_removes_one hkeys hne
  have hkey_out : key ∉ mapKeys (c.evictLRU).cache := by
    intro hmem
    have : key ∈ mapKeys c.cache := evictLRU_keys_subset c hmem
    exact (mapLookup_none_iff.mp hlook) this
  constructor
  · rw [mapSet_of_not_mem _ hkey_out, List.length_append, List.length_singleton]
    omega
  · exact hevcount

/-- C6, counterexample: `maxSize = 2`; fill with `a`, `b`, `get "a"`, then
insert `maxSize = 2` fresh keys.  The second insertion necessarily evicts the
just-accessed `a` (after `c` and `d` arrive only two slots exist), so the
claim's `maxSize`-insertions scenario is false. -/
theorem lru_refresh_counterexample :
    mapLookup "a" (applyOps (emptyLRU Nat 2)
      [CacheOp.set "a" 1 1000000 0, CacheOp.set "b" 2 1000000 1,
       CacheOp.get "a" 2,
       CacheOp.set "c" 3 1000000 3, CacheOp.set "d" 4 1000000 4]).cache = none := by
  decide

/-- C6, amended: whenever a `set` triggers an eviction, the evicted entry
carries the globally smallest `accessTime` over the whole map at eviction time;
a `get` hit refreshes the entry's `accessTime` to the `get` time; and a `get`
that is strictly more recent than every other entry's access, followed by
inserting at most `maxSize - 1` fresh distinct keys at later times, never
evicts the just-accessed key. -/
theorem lru_evicts_least_recent {T : Type}
    (c : LRUCache T) (key k₀ : String) (t₀ : Int) (v : T) (ttl now : Int)
    (sets : List (String × T × Int × Int)) (cg : LRUCache T) (kg : String)
    (tg : Int) (ekg : CacheEntry T) :
    (scanOldest c.cache = some (k₀, t₀) → k₀ ≠ "" →
      (c.maxSize ≤ c.cache.length ∧ (mapLookup key c.cache).isNone) →
      (c.set key v ttl now).cache
          = mapSet key ⟨v, now + ttl, now⟩ (mapDelete k₀ c.cache) ∧
      (∃ e₀, (k₀, e₀) ∈ c.cache ∧ e₀.accessTime = t₀) ∧
      (∀ kv ∈ c.cache, t₀ ≤ kv.2.accessTime)) ∧
    (∀ e, mapLookup kg cg.cache = some e → ¬ tg > e.expires →
      mapLookup kg ((cg.get kg tg).2).cache = some { e with accessTime := tg }) ∧
    ((mapKeys cg.cache).Nodup → mapLookup kg cg.cache = some ekg →
      ¬ tg > ekg.expires →
      (∀ kv ∈ cg.cache, kv.1 ≠ kg → kv.2.accessTime < tg) →
      sets.length ≤ cg.maxSize - 1 →
      (∀ q ∈ sets, tg ≤ q.2.2.2) →
      (∀ q ∈ sets, q.1 ∉ mapKeys cg.cache) →
      (sets.map (fun q => q.1)).Pairwise (· ≠ ·) →
      ∃ e, mapLookup kg
          (applyOps ((cg.get kg tg).2)
            (sets.map (fun q => CacheOp.set q.1 q.2.1 q.2.2.1 q.2.2.2))).cache
          = some e ∧ e.value = ekg.value) := by
  refine ⟨?_, ?_, ?_⟩
  · intro hscan hk₀ hcond
    refine ⟨?_, ?_, scanOldest_min hscan⟩
    · rw [set_eq_evict hcond, evictLRU_scan_some_ne hscan hk₀]
    · exact scanOldest_mem hscan
  · intro e hlook hexp
    rw [get_hit hlook hexp]
    exact mapLookup_mapSet_self kg _ cg.cache
  · intro hnodup hlook hexp hold hcount htimes hfresh hpair
    have hkgmem : kg ∈ mapKeys cg.cache :=
      List.mem_map_of_mem Prod.fst (mapLookup_mem hlook)
    rw [get_hit hlook hexp]
    have hsurv := lru_survive sets
      { cg with cache := mapSet kg { ekg with accessTime := tg } cg.cache,
                hits := cg.hits + 1 }
      kg tg { ekg with accessTime := tg } (nodup_mapSet hnodup)
      (mapLookup_mapSet_self kg _ cg.cache) rfl ?_ htimes ?_ hpair
    · exact ⟨{ ekg with accessTime := tg }, hsurv, rfl⟩
    · have hallne : ∀ kv ∈ mapSet kg { ekg with accessTime := tg } cg.cache,
          kv.1 ≠ kg → (fun kv : String × CacheEntry T =>
            decide (kv.2.accessTime < tg)) kv = true := by
        intro kv hkv hne
        rcases mem_mapSet hkv with rfl | hm
        · exact absurd rfl hne
        · exact decide_eq_true (hold kv hm hne)
      have hcp := countP_ge_of_ne_key
        (fun kv : String × CacheEntry T => decide (kv.2.accessTime < tg)) kg
        (mapSet kg { ekg with accessTime := tg } cg.cache)
        (nodup_mapSet hnodup) hallne
      have hlen : (mapSet kg { ekg with accessTime := tg } cg.cache).length
          = cg.cache.length := length_mapSet_mem _ hkgmem
      have hpos : 0 < cg.cache.length := by
        have h := List.length_pos_of_mem hkgmem
        simpa [mapKeys] using h
      rw [hlen] at hcp
      dsimp only
      rw [hlen]
      omega
    · intro q hq hqmem
      rcases mem_mapKeys_mapSet.mp hqmem with h1 | h2
      · exact hfresh q hq (h1 ▸ hkgmem)
      · exact hfresh q hq h2

/-- Witness for `lru_evicts_least_recent`: a three-slot cache holding only `a`
and `b` (below capacity), after `get "a"` and `maxSize - 1 = 2` fresh
insertions — one filling the free slot, one evicting — still holds the value
of `a`. -/
theorem lru_evicts_least_recent_witness :
    ∃ e, mapLookup "a"
        (applyOps ((LRUCache.get
            { cache := [("a", ⟨1, 1000, 0⟩), ("b", ⟨2, 1000, 1⟩)],
              maxSize := 3, hits := 0, misses := 0, evictions := 0 } "a" 2).2)
          ([(("c" : String), (3 : Nat), (1000 : Int), (3 : Int)),
            (("d" : String), (4 : Nat), (1000 : Int), (4 : Int))].map
            (fun q => CacheOp.set q.1 q.2.1 q.2.2.1 q.2.2.2))).cache
        = some e ∧ e.value = (⟨1, 1000, 0⟩ : CacheEntry Nat).value :=
  (lru_evicts_least_recent
      (emptyLRU Nat 2) "x" "y" 0 0 0 0
      [(("c" : String), (3 : Nat), (1000 : Int), (3 : Int)),
       (("d" : String), (4 : Nat), (1000 : Int), (4 : Int))]
      { cache := [("a", ⟨1, 1000, 0⟩), ("b", ⟨2, 1000, 1⟩)],
        maxSize := 3, hits := 0, misses := 0, evictions := 0 }
      "a" 2 ⟨1, 1000, 0⟩).2.2
    (by decide) (by decide) (by decide) (by decide) (by decide) (by decide)
    (by decide) (by decide)

/-- Witness for `lru_bounded_size`: a full one-slot cache accepts a fresh key by
evicting exactly one entry. -/
theorem lru_bounded_size_witness :
    ((applyOps (emptyLRU Nat 1) [CacheOp.set "a" 5 1000 0]).set "b" 6 1000 1).cache.length
        = 1 ∧
    ((applyOps (emptyLRU Nat 1) [CacheOp.set "a" 5 1000 0]).set "b" 6 1000 1).evictions
        = (applyOps (emptyLRU Nat 1) [CacheOp.set "a" 5 1000 0]).evictions + 1 :=
  (lru_bounded_size 1 [CacheOp.set "a" 5 1000 0] "b" 6 1000 1 (by decide)
      (by decide) (by decide)).2 (by decide) (by decide)

end Cache

namespace RateLimit

theorem check_allowed_eq (store : Store) (identifier : String) (limit : Nat)
    (windowMs now : Int) :
    (check store identifier limit windowMs now).1.allowed
      = decide (((store identifier).filter
          (fun t => decide (now - t < windowMs))).length < limit) := rfl

theorem check_store_other {store : Store} {identifier id' : String} (limit : Nat)
    (windowMs now : Int) (h : id' ≠ identifier) :
    (check store identifier limit windowMs now).2 id' = store id' := by
  simp [check, h]

theorem check_store_self_of_allowed {store : Store} {identifier : String}
    {limit : Nat} {windowMs now : Int}
    (h : (check store identifier limit windowMs now).1.allowed = true) :
    (check store identifier limit windowMs now).2 identifier
      = (store identifier).filter (fun t => decide (now - t < windowMs)) ++ [now] := by
  have h' : ((store identifier).filter
      (fun t => decide (now - t < windowMs))).length < limit := by
    simpa [check] using h
  simp [check, h']

theorem check_store_self_of_denied {store : Store} {identifier : String}
    {limit : Nat} {windowMs now : Int}
    (h : (check store identifier limit windowMs now).1.allowed = false) :
    (check store identifier limit windowMs now).2 identifier
      = (store identifier).filter (fun t => decide (now - t < windowMs)) := by
  have h' : ¬ ((store identifier).filter
      (fun t => decide (now - t < windowMs))).length < limit := by
    simpa [check] using h
  simp [check, h']

theorem allowedTimes_nil (id0 : String) (store : Store) :
    allowedTimes id0 store [] = [] := rfl

theorem allowedTimes_cons_pos {id0 : String} {store : Store} {c : Call}
    (rest : List Call) (hid : c.identifier = id0)
    (hall : (check store c.identifier c.limit c.windowMs c.time).1.allowed = true) :
    allowedTimes id0 store (c :: rest)
      = c.time :: allowedTimes id0
          (check store c.identifier c.limit c.windowMs c.time).2 rest := by
  simp only [allowedTimes]
  rw [if_pos ⟨hid, hall⟩]

theorem allowedTimes_cons_neg {id0 : String} {store : Store} {c : Call}
    (rest : List Call)
    (h : ¬ (c.identifier = id0 ∧
      (check store c.identifier c.limit c.windowMs c.time).1.allowed = true)) :
    allowedTimes id0 store (c :: rest)
      = allowedTimes id0 (check store c.identifier c.limit c.windowMs c.time).2 rest := by
  simp only [allowedTimes]
  rw [if_neg h]

end RateLimit

namespace RateLimit

/-- Main induction for the sliding-window bound.  `H` is the history of this
identifier's admitted times so far, `m` bounds `H` from above and the trace's
times from below, and the identifier's stored record is exactly the `W`-recent
part of `H` as of `m`. -/
theorem allowed_window_bound (id0 : String) (L : Nat) (W s : Int) (hW : 0 < W) :
    ∀ (calls : List Call) (store : Store) (H : List Int) (m : Int),
      (∀ c ∈ calls, c.identifier = id0 → c.limit = L ∧ c.windowMs = W) →
      (∀ c ∈ calls, m ≤ c.time) →
      (calls.map Call.time).Pairwise (· ≤ ·) →
      (∀ t ∈ H, t ≤ m) →
      store id0 = H.filter (fun t => decide (m - t < W)) →
      H.countP (fun t => decide (s < t ∧ t ≤ s + W)) ≤ L →
      (H ++ allowedTimes id0 store calls).countP
          (fun t => decide (s < t ∧ t ≤ s + W)) ≤ L := by
  intro calls
  induction calls with
  | nil =>
    intro store H m _ _ _ _ _ hcount
    rw [allowedTimes_nil, List.append_nil]
    exact hcount
  | cons c rest ih =>
    intro store H m hcfg hm htime hH hstore hcount
    rw [List.map_cons, List.pairwise_cons] at htime
    have hmn : m ≤ c.time := hm c (List.mem_cons_self _ _)
    have hmrest : ∀ c' ∈ rest, c.time ≤ c'.time := by
      intro c' hc'
      exact htime.1 c'.time (List.mem_map_of_mem _ hc')
    have hcfgrest : ∀ c' ∈ rest, c'.identifier = id0 → c'.limit = L ∧ c'.windowMs = W :=
      fun c' hc' hid' => hcfg c' (List.mem_cons_of_mem _ hc') hid'
    by_cases hcid : c.identifier = id0
    · obtain ⟨hL, hWq⟩ := hcfg c (List.mem_cons_self _ _) hcid
      have hff : (store c.identifier).filter (fun t => decide (c.time - t < W))
          = H.filter (fun t => decide (c.time - t < W)) := by
        rw [hcid, hstore, List.filter_filter]
        apply List.filter_congr
        intro t ht
        by_cases hnt : c.time - t < W
        · have hmt : m - t < W := by omega
          simp [hnt, hmt]
        · simp [hnt]
      by_cases hall : (H.filter (fun t => decide (c.time - t < W))).length < L
      · have hallowed :
            (check store c.identifier c.limit c.windowMs c.time).1.allowed = true := by
          rw [check_allowed_eq, hWq, hff, hL]
          exact decide_eq_true hall
        rw [allowedTimes_cons_pos rest hcid hallowed]
        have hstore' : (check store c.identifier c.limit c.windowMs c.time).2 id0
            = (H ++ [c.time]).filter (fun t => decide (c.time - t < W)) := by
          rw [← hcid, check_store_self_of_allowed hallowed, hWq, hff,
            List.filter_append]
          congr 1
          rw [List.filter_cons,
            if_pos (decide_eq_true (show c.time - c.time < W by omega))]
          rfl
        have hcount' : (H ++ [c.time]).countP
            (fun t => decide (s < t ∧ t ≤ s + W)) ≤ L := by
          rw [List.countP_append, List.countP_singleton]
          by_cases hin : s < c.time ∧ c.time ≤ s + W
          · rw [if_pos (decide_eq_true hin)]
            have hmono : H.countP (fun t => decide (s < t ∧ t ≤ s + W))
                ≤ H.countP (fun t => decide (c.time - t < W)) := by
              apply List.countP_mono_left
              intro a _ hpa
              rw [decide_eq_true_eq] at hpa
              exact decide_eq_true (by omega)
            have hflen : H.countP (fun t => decide (c.time - t < W))
                = (H.filter (fun t => decide (c.time - t < W))).length :=
              List.countP_eq_length_filter _ H
            omega
          · rw [if_neg (by simpa using hin)]
            omega
        have htail := ih (check store c.identifier c.limit c.windowMs c.time).2
          (H ++ [c.time]) c.time hcfgrest hmrest htime.2
          (by
            intro t ht
            rcases List.mem_append.mp ht with h1 | h2
            · exact le_trans (hH t h1) hmn
            · rw [List.mem_singleton] at h2
              omega)
          hstore' hcount'
        simp only [List.countP_append, List.countP_cons, List.countP_singleton]
          at htail ⊢
        omega
      · have hdenied :
            (check store c.identifier c.limit c.windowMs c.time).1.allowed = false := by
          rw [check_allowed_eq, hWq, hff, hL]
          exact decide_eq_false hall
        rw [allowedTimes_cons_neg rest
          (fun hcon => Bool.false_ne_true (hdenied ▸ hcon.2))]
        apply ih (check store c.identifier c.limit c.windowMs c.time).2 H c.time
          hcfgrest hmrest htime.2
          (fun t ht => le_trans (hH t ht) hmn) ?_ hcount
        rw [← hcid, check_store_self_of_denied hdenied, hWq, hff]
    · rw [allowedTimes_cons_neg rest (fun hcon => hcid hcon.1)]
      apply ih (check store c.identifier c.limit c.windowMs c.time).2 H m
        hcfgrest (fun c' hc' => hm c' (List.mem_cons_of_mem _ hc')) htime.2 hH ?_ hcount
      rw [check_store_other c.limit c.windowMs c.time (fun h => hcid h.symm)]
      exact hstore

end RateLimit

namespace RateLimit

/-- C1: starting from a fresh limiter, for any trace of `check` calls at
non-decreasing times in which every call for identifier `id0` uses limit `L`
and window `W`, the number of admitted (`allowed = true`) calls of `id0` whose
times lie in any single `W`-length sliding sub-interval `(s, s + W]` is at most
`L` — bursts at window boundaries included. -/
theorem rateLimiter_sliding_window (calls : List Call) (id0 : String) (L : Nat)
    (W s : Int)
    (hcfg : ∀ c ∈ calls, c.identifier = id0 → c.limit = L ∧ c.windowMs = W)
    (htime : (calls.map Call.time).Pairwise (· ≤ ·)) :
    (allowedTimes id0 emptyStore calls).countP
        (fun t => decide (s < t ∧ t ≤ s + W)) ≤ L := by
  by_cases hW : 0 < W
  · rcases calls with _ | ⟨c, rest⟩
    · rw [allowedTimes_nil]
      exact Nat.zero_le L
    · have hm : ∀ c' ∈ c :: rest, c.time ≤ c'.time := by
        intro c' hc'
        rcases List.mem_cons.mp hc' with rfl | h2
        · exact le_refl _
        · rw [List.map_cons, List.pairwise_cons] at htime
          exact htime.1 c'.time (List.mem_map_of_mem _ h2)
      have hmain := allowed_window_bound id0 L W s hW (c :: rest) emptyStore [] c.time
        hcfg hm htime (by intro t ht; exact absurd ht (List.not_mem_nil t)) rfl
        (by rw [List.countP_nil]; exact Nat.zero_le L)
      rw [List.nil_append] at hmain
      exact hmain
  · have hempty : ∀ t ∈ allowedTimes id0 emptyStore calls,
        ¬ ((fun t => decide (s < t ∧ t ≤ s + W)) t = true) := by
      intro t _ hdec
      rw [decide_eq_true_eq] at hdec
      omega
    rw [List.countP_eq_zero.mpr hempty]
    exact Nat.zero_le L

/-- Witness for `rateLimiter_sliding_window`: a burst of three calls under
limit 2 / window 1000 admits at most two inside the window starting just
before the burst. -/
theorem rateLimiter_sliding_window_witness :
    (allowedTimes "a" emptyStore
        [⟨"a", 2, 1000, 0⟩, ⟨"a", 2, 1000, 10⟩, ⟨"a", 2, 1000, 20⟩]).countP
        (fun t => decide ((-1 : Int) < t ∧ t ≤ -1 + 1000)) ≤ 2 :=
  rateLimiter_sliding_window
    [⟨"a", 2, 1000, 0⟩, ⟨"a", 2, 1000, 10⟩, ⟨"a", 2, 1000, 20⟩] "a" 2 1000 (-1)
    (by decide) (by decide)

end RateLimit
